import Mathlib

/-!
Verification of the module-system build generator of the
`c-autotools-template` repository (the `makemake` generator: module
descriptor parsing, dependency-graph validation, link-order planning,
test/mock planning and descriptor emission).

The generator script itself is not shipped under `src/` (only its inputs,
its documentation in `README.md`, the example module layout, `project.mk`
and one test-suite source file are), so the generator pipeline is modelled
from the specification and checked against the concrete artifacts that are
present.
-/

namespace MakeMake

/-- Modelled from the spec: the kind of a module, a closed tagged variant
(`scripts/makemake.py` is not under `src/`). -/
inductive ModuleKind where
  | library
  | program
deriving DecidableEq

/-- Modelled from the spec: a parsed module declaration — name, kind and the
ordered list of declared dependency names (`scripts/makemake.py` is not under
`src/`; the field set follows §3 of the spec, file lists are omitted because
no claim mentions them). -/
structure ModuleDeclaration where
  name : String
  kind : ModuleKind
  deps : List String
deriving DecidableEq

/-- Modelled from the spec: errors of the dependency-graph builder. -/
inductive GraphError where
  | unknownDependency (missing : String)
  | cannotDependOnProgram (name : String)
  | dependencyCycle (cycle : List String)
deriving DecidableEq

/-- Modelled from the spec: errors of the module descriptor parser. -/
inductive ConfigError where
  | ambiguousModuleKind
  | invalidModuleName
deriving DecidableEq

/-- Modelled from the spec: errors of the test/mock planner. -/
inductive PlanError where
  | duplicateSuiteName (name : String)
  | unknownSuiteModule (name : String)
deriving DecidableEq

/-- Modelled from the spec: the error taxonomy surfaced by the generator. -/
inductive GenError where
  | graph (e : GraphError)
  | plan (e : PlanError)
deriving DecidableEq

/-- Modelled from the spec: resolve a module name to its declaration
(first declaration wins, as in an assoc-table lookup). -/
def findModule : List ModuleDeclaration → String → Option ModuleDeclaration
  | [], _ => none
  | m :: rest, n => if m.name = n then some m else findModule rest n

/-- The declared dependency list of the module a name resolves to. -/
def depsOf (ms : List ModuleDeclaration) (n : String) : List String :=
  match findModule ms n with
  | some m => m.deps
  | none => []

/-- The dependency edge relation: `Edge ms a b` holds when the module named
`a` declares a dependency on `b`. -/
def Edge (ms : List ModuleDeclaration) (a b : String) : Prop :=
  b ∈ depsOf ms a

instance (ms : List ModuleDeclaration) (a b : String) : Decidable (Edge ms a b) :=
  inferInstanceAs (Decidable (b ∈ depsOf ms a))

/-- Nonempty dependency paths: `Reaches ms a b` holds when `b` is in the
transitive dependency closure of `a`. -/
inductive Reaches (ms : List ModuleDeclaration) : String → String → Prop
  | single {a b : String} : Edge ms a b → Reaches ms a b
  | cons {a b c : String} : Edge ms a b → Reaches ms b c → Reaches ms a c

/-- The dependency graph contains a cycle. -/
def HasCycle (ms : List ModuleDeclaration) : Prop :=
  ∃ n, Reaches ms n n

/-- The declared module names, in declaration order. -/
def declaredNames (ms : List ModuleDeclaration) : List String :=
  ms.map ModuleDeclaration.name

/-- A name list is closed under the dependency edges of `ms`. -/
def Closed (ms : List ModuleDeclaration) (V : List String) : Prop :=
  ∀ a ∈ V, ∀ b, Edge ms a b → b ∈ V

/-- The invariant of the traversal's post-order accumulator: no duplicates,
no edge from an earlier to a later element (dependencies precede their
dependents), closed under edges, and free of self-edges. -/
def Inv (ms : List ModuleDeclaration) (V : List String) : Prop :=
  V.Nodup ∧ V.Pairwise (fun a b => ¬ Edge ms a b) ∧ Closed ms V ∧
    ∀ a ∈ V, ¬ Edge ms a a

/-- The guarantees of one successful `visit` call: the accumulator
invariant is preserved, the accumulator only grows, the visited node is
recorded, nothing on the active path is recorded, and every new record is
the node itself or reachable from it. -/
def VisitOk (ms : List ModuleDeclaration) (path V : List String) (n : String)
    (V' : List String) : Prop :=
  Inv ms V' ∧ (∃ Δ, V' = V ++ Δ) ∧ n ∈ V' ∧ (∀ p ∈ path, p ∉ V') ∧
    (∀ x ∈ V', x ∈ V ∨ x = n ∨ Reaches ms n x)

/-- The guarantees of a successful fold of `visit` over a dependency
list. -/
def FoldOk (ms : List ModuleDeclaration) (path V : List String)
    (ds : List String) (V' : List String) : Prop :=
  Inv ms V' ∧ (∃ Δ, V' = V ++ Δ) ∧ (∀ d ∈ ds, d ∈ V') ∧ (∀ p ∈ path, p ∉ V') ∧
    (∀ x ∈ V', x ∈ V ∨ ∃ d ∈ ds, x = d ∨ Reaches ms d x)

/-- Consecutive elements of the list are dependency edges. -/
def ChainList (ms : List ModuleDeclaration) : List String → Prop
  | [] => True
  | [_] => True
  | a :: b :: rest => Edge ms a b ∧ ChainList ms (b :: rest)

/-- The list is a genuine dependency cycle: nonempty, consecutive elements
are edges, and the last element has an edge back to the first. -/
def CycleList (ms : List ModuleDeclaration) : List String → Prop
  | [] => False
  | x :: rest => ChainList ms ((x :: rest) ++ [x])

/-- Every declared dependency name resolves to a declared module. -/
def Resolved (ms : List ModuleDeclaration) : Prop :=
  ∀ m ∈ ms, ∀ d ∈ m.deps, (findModule ms d).isSome

instance (ms : List ModuleDeclaration) : Decidable (Resolved ms) := by
  unfold Resolved; infer_instance

/-- Whether the name resolves to a `Program`-kind module. -/
def resolvesToProgram (ms : List ModuleDeclaration) (d : String) : Bool :=
  match findModule ms d with
  | some p => p.kind == .program
  | none => false

/-- No declared dependency names a `Program`-kind module. -/
def NoProgramDeps (ms : List ModuleDeclaration) : Prop :=
  ∀ m ∈ ms, ∀ d ∈ m.deps, resolvesToProgram ms d = false

instance (ms : List ModuleDeclaration) : Decidable (NoProgramDeps ms) := by
  unfold NoProgramDeps; infer_instance

/-- Modelled from the spec: resolution pass over one dependency list —
the first unresolved name is reported as `GraphError.unknownDependency`. -/
def resolveDeps (ms : List ModuleDeclaration) : List String → Except GraphError Unit
  | [] => .ok ()
  | d :: rest =>
    match findModule ms d with
    | none => .error (.unknownDependency d)
    | some _ => resolveDeps ms rest

/-- Modelled from the spec: the resolution pass of the graph builder. -/
def checkResolved (ms : List ModuleDeclaration) :
    List ModuleDeclaration → Except GraphError Unit
  | [] => .ok ()
  | m :: rest => (resolveDeps ms m.deps).bind fun _ => checkResolved ms rest

/-- Modelled from the spec: program-dependency pass over one dep list —
a dependency on a `Program`-kind module is reported as
`GraphError.cannotDependOnProgram`. -/
def progFree (ms : List ModuleDeclaration) : List String → Except GraphError Unit
  | [] => .ok ()
  | d :: rest =>
    if resolvesToProgram ms d then .error (.cannotDependOnProgram d)
    else progFree ms rest

/-- Modelled from the spec: the program-dependency pass of the graph builder. -/
def checkPrograms (ms : List ModuleDeclaration) :
    List ModuleDeclaration → Except GraphError Unit
  | [] => .ok ()
  | m :: rest => (progFree ms m.deps).bind fun _ => checkPrograms ms rest

/-- Drop the prefix of the active path strictly before the first occurrence
of `n`; on a revisit this is the reported dependency cycle. -/
def dropUntil (n : String) : List String → List String
  | [] => []
  | p :: rest => if p = n then p :: rest else dropUntil n rest

/-- Error-propagating left fold over a list of names, used by the
traversal to visit a dependency list in declaration order. -/
def exceptFold (f : List String → String → Except GraphError (List String)) :
    List String → List String → Except GraphError (List String)
  | V, [] => .ok V
  | V, d :: rest =>
    match f V d with
    | .error e => .error e
    | .ok V' => exceptFold f V' rest

/-- Modelled from the spec: depth-first traversal tracking the active path
(`path`) and a post-order accumulator of finished nodes (`visited`).
Revisiting a node on the active path reports the cycle; a node that does not
resolve reports an unknown dependency; otherwise the node's dependencies are
traversed first and the node is appended post-order.  The `fuel` argument
makes the recursion structural; it is kept ≥ the number of declarations + 1,
which the development proves sufficient. -/
def visit (ms : List ModuleDeclaration) :
    Nat → List String → List String → String → Except GraphError (List String)
  | 0, _, _, _ => .error (.dependencyCycle [])
  | fuel + 1, path, visited, n =>
    if n ∈ path then .error (.dependencyCycle (dropUntil n path))
    else if n ∈ visited then .ok visited
    else
      match findModule ms n with
      | none => .error (.unknownDependency n)
      | some m =>
        match exceptFold (fun v d => visit ms fuel (path ++ [n]) v d) visited m.deps with
        | .error e => .error e
        | .ok v => .ok (v ++ [n])

/-- Fuel bound used by every traversal entry point. -/
def graphFuel (ms : List ModuleDeclaration) : Nat := ms.length + 1

/-- Modelled from the spec: the cycle-detection pass — one shared DFS over
every declared module. -/
def cycleCheckFold (ms : List ModuleDeclaration) : Except GraphError (List String) :=
  exceptFold (fun v n => visit ms (graphFuel ms) [] v n) [] (declaredNames ms)

/-- Modelled from the spec: the cycle-detection pass result. -/
def checkAcyclicAll (ms : List ModuleDeclaration) : Except GraphError Unit :=
  (cycleCheckFold ms).map fun _ => ()

/-- Modelled from the spec: one module's link order — the reverse of the
depth-first post-order of its transitive dependency closure, so dependents
precede their dependencies in emitted linker input order. -/
def modulePlan (ms : List ModuleDeclaration) (m : ModuleDeclaration) :
    Except GraphError (List String) :=
  match exceptFold (fun v d => visit ms (graphFuel ms) [m.name] v d) [] m.deps with
  | .error e => .error e
  | .ok v => .ok v.reverse

/-- Modelled from the spec: the per-module link orders, in declaration order. -/
def buildLinkOrders (ms : List ModuleDeclaration) :
    List ModuleDeclaration → Except GraphError (List (String × List String))
  | [] => .ok []
  | m :: rest =>
    (modulePlan ms m).bind fun p =>
      (buildLinkOrders ms rest).map fun ps => (m.name, p) :: ps

/-- Modelled from the spec: a raw test-suite declaration discovered from the
test tree — suite name and the directory (= module under test) name. -/
structure TestSuiteDecl where
  suiteName : String
  moduleName : String
deriving DecidableEq

/-- Modelled from the spec: one mock target — the dependency name, its public
header, and the generated mock source/header pair. -/
structure MockTarget where
  dep : String
  headerPath : String
  mockHeader : String
  mockSource : String
deriving DecidableEq

/-- Modelled from the spec: a fully planned test suite. -/
structure PlannedSuite where
  suiteName : String
  moduleName : String
  mocks : List MockTarget
deriving DecidableEq

/-- Modelled from the spec: the discovered input of one generator run. -/
structure SourceTree where
  modules : List ModuleDeclaration
  suites : List TestSuiteDecl
  extensionText : Option String
deriving DecidableEq

/-- Modelled from the spec: the validated in-memory state handed to the
descriptor emitter. -/
structure ProjectPlan where
  linkOrders : List (String × List String)
  suites : List PlannedSuite
deriving DecidableEq

/-- Modelled from the spec: the CMock naming convention — the mock for
dependency `d` is the `mock_<d>` source/header pair generated from the
dependency's public header `src/<d>/<d>.h`. -/
def mkMockTarget (d : String) : MockTarget :=
  ⟨d, "src/" ++ d ++ "/" ++ d ++ ".h", "mock_" ++ d ++ ".h", "mock_" ++ d ++ ".c"⟩

/-- Modelled from the spec: plan one test suite — one mock target per direct
dependency of the module under test. -/
def planSuite (ms : List ModuleDeclaration) (s : TestSuiteDecl) :
    Except PlanError PlannedSuite :=
  match findModule ms s.moduleName with
  | none => .error (.unknownSuiteModule s.moduleName)
  | some m => .ok ⟨s.suiteName, s.moduleName, m.deps.map mkMockTarget⟩

/-- Modelled from the spec: project-wide uniqueness of test-suite names. -/
def checkSuiteNames : List TestSuiteDecl → Except PlanError Unit
  | [] => .ok ()
  | s :: rest =>
    if s.suiteName ∈ rest.map (·.suiteName) then .error (.duplicateSuiteName s.suiteName)
    else checkSuiteNames rest

/-- Modelled from the spec: the test/mock planning pass. -/
def planSuites (ms : List ModuleDeclaration) :
    List TestSuiteDecl → Except PlanError (List PlannedSuite)
  | [] => .ok []
  | s :: rest =>
    (planSuite ms s).bind fun p => (planSuites ms rest).map fun ps => p :: ps

/-- Modelled from the spec: the full validation/planning pipeline, stages in
the spec's order — resolution, program-dependency check, cycle detection,
link-order computation, suite-name check, mock planning. -/
def planProject (t : SourceTree) : Except GenError ProjectPlan :=
  ((checkResolved t.modules t.modules).mapError .graph).bind fun _ =>
  ((checkPrograms t.modules t.modules).mapError .graph).bind fun _ =>
  ((checkAcyclicAll t.modules).mapError .graph).bind fun _ =>
  ((buildLinkOrders t.modules t.modules).mapError .graph).bind fun lo =>
  ((checkSuiteNames t.suites).mapError .plan).bind fun _ =>
  ((planSuites t.modules t.suites).mapError .plan).map fun ps =>
    ProjectPlan.mk lo ps

/-- Assoc lookup of a module's link order in the computed plan list. -/
def lookupPlan : List (String × List String) → String → Option (List String)
  | [], _ => none
  | (k, v) :: rest, n => if k = n then some v else lookupPlan rest n

/-- Modelled from the spec: the `Makefile.am` lines emitted for one module —
its build-list entry, its source list and (for a program) its link inputs in
link-plan order. -/
def moduleLines (pp : ProjectPlan) (m : ModuleDeclaration) : List String :=
  let link := (lookupPlan pp.linkOrders m.name).getD []
  match m.kind with
  | .program =>
    ["bin_PROGRAMS += " ++ m.name,
     m.name ++ "_SOURCES = src/" ++ m.name ++ "/" ++ m.name ++ ".c",
     m.name ++ "_LDADD =" ++ String.join (link.map (fun d => " lib" ++ d ++ ".la"))]
  | .library =>
    ["noinst_LTLIBRARIES += lib" ++ m.name ++ ".la",
     "lib" ++ m.name ++ "_la_SOURCES = src/" ++ m.name ++ "/" ++ m.name ++ ".c"]

/-- Modelled from the spec: the `Makefile.am` lines emitted for one planned
test suite — runner registration, and generation/cleanup entries for every
mock artifact. -/
def suiteLines (s : PlannedSuite) : List String :=
  ["check_PROGRAMS += tests/runners/" ++ s.suiteName,
   "TESTS += tests/runners/" ++ s.suiteName]
  ++ s.mocks.map (fun t => "BUILT_SOURCES += " ++ t.mockHeader)
  ++ s.mocks.map (fun t => "CLEANFILES += " ++ t.mockHeader ++ " " ++ t.mockSource)

/-- Modelled from the spec: the descriptor emitter — a pure render of the
validated state, with the optional extension file appended verbatim. -/
def renderDescriptor (t : SourceTree) (pp : ProjectPlan) : String :=
  String.join
    (((t.modules.map (moduleLines pp)).flatten ++ (pp.suites.map suiteLines).flatten).map
      (fun line => line ++ "\n"))
  ++ (match t.extensionText with | some s => s | none => "")

/-- Modelled from the spec: the whole generator as a pure function from the
discovered source tree to the descriptor text. -/
def generate (t : SourceTree) : Except GenError String :=
  (planProject t).map (renderDescriptor t)

/-- Modelled from the spec: the observable filesystem of one run — the
source tree plus the (possibly absent) previously generated output file. -/
structure FileSystem where
  tree : SourceTree
  output : Option String
deriving DecidableEq

/-- Modelled from the spec: one generator invocation over the filesystem —
the output file is replaced only after the whole pipeline succeeds
(temp-file-then-replace), so on any error the filesystem is untouched. -/
def runGenerator (fs : FileSystem) : FileSystem :=
  match generate fs.tree with
  | .ok text => { fs with output := some text }
  | .error _ => fs

/-! ### The module descriptor parser -/

/-- Space-like characters stripped when trimming keys and values. -/
def isSpaceChar (c : Char) : Bool := c == ' ' || c == '\t' || c == '\r'

/-- Trim space-like characters from both ends of a character list. -/
def trimChars (cs : List Char) : List Char :=
  ((cs.dropWhile isSpaceChar).reverse.dropWhile isSpaceChar).reverse

/-- Split a character list on a separator character. -/
def splitOnChar (sep : Char) : List Char → List (List Char)
  | [] => [[]]
  | c :: rest =>
    match splitOnChar sep rest with
    | [] => [[c]]
    | g :: gs => if c == sep then [] :: g :: gs else (c :: g) :: gs

/-- Break a line at its first `=`, producing the raw key and value parts. -/
def breakAtEq : List Char → Option (List Char × List Char)
  | [] => none
  | c :: rest =>
    if c == '=' then some ([], rest)
    else (breakAtEq rest).map (fun p => (c :: p.1, p.2))

/-- Modelled from the spec: turn a descriptor file's text into its key/value
pairs — one pair per line containing `=`, key and value trimmed; section
header lines and blank lines carry no `=` and are skipped
(`scripts/makemake.py` is not under `src/`). -/
def parsePairs (text : String) : List (String × String) :=
  (splitOnChar '\n' text.data).filterMap fun line =>
    (breakAtEq line).map fun p =>
      (String.mk (trimChars p.1), String.mk (trimChars p.2))

/-- First value bound to a key in the parsed pair list. -/
def getVal : List (String × String) → String → Option String
  | [], _ => none
  | p :: rest, k => if p.1 = k then some p.2 else getVal rest k

/-- `[A-Za-z]` as a character test. -/
def isAlphaChar (c : Char) : Bool :=
  ('A' ≤ c && c ≤ 'Z') || ('a' ≤ c && c ≤ 'z')

/-- `[A-Za-z0-9]` as a character test. -/
def isAlphaNumChar (c : Char) : Bool :=
  isAlphaChar c || ('0' ≤ c && c ≤ '9')

/-- Executable form of the module-name check `^[A-Za-z][A-Za-z0-9]*$`. -/
def validName (s : String) : Bool :=
  match s.data with
  | [] => false
  | c :: rest => isAlphaChar c && rest.all isAlphaNumChar

/-- The declarative reading of the name pattern `^[A-Za-z][A-Za-z0-9]*$`:
a first character in the letter ranges followed by letters or digits. -/
def MatchesNamePattern (s : String) : Prop :=
  ∃ c rest, s.data = c :: rest ∧ isAlphaChar c = true ∧
    ∀ d ∈ rest, isAlphaNumChar d = true

instance (s : String) : Decidable (MatchesNamePattern s) := by
  unfold MatchesNamePattern
  match s.data with
  | [] => exact .isFalse (by simp)
  | c :: rest =>
    refine decidable_of_iff (isAlphaChar c = true ∧ ∀ d ∈ rest, isAlphaNumChar d = true) ?_
    constructor
    · rintro ⟨h1, h2⟩; exact ⟨c, rest, rfl, h1, h2⟩
    · rintro ⟨c', rest', heq, h1, h2⟩
      cases heq; exact ⟨h1, h2⟩

/-- Modelled from the spec: the dependency names of a descriptor — the
`deps` value split on spaces, empty fields dropped. -/
def parseDepsValue (v : String) : List String :=
  ((splitOnChar ' ' v.data).filter (fun f => ¬ f = [])).map String.mk

/-- The dependency list declared by a descriptor text. -/
def cfgDeps (text : String) : List String :=
  match getVal (parsePairs text) "deps" with
  | some v => parseDepsValue v
  | none => []

/-- Modelled from the spec: the module descriptor parser — exactly one of
the `library`/`program` keys must be present (else
`ConfigError.ambiguousModuleKind`), the declared name must match
`^[A-Za-z][A-Za-z0-9]*$` (else `ConfigError.invalidModuleName`), and the
optional `deps` value gives the dependency names
(`scripts/makemake.py` is not under `src/`). -/
def parseModuleCfg (text : String) : Except ConfigError ModuleDeclaration :=
  let ps := parsePairs text
  match getVal ps "library", getVal ps "program" with
  | some _, some _ => .error .ambiguousModuleKind
  | none, none => .error .ambiguousModuleKind
  | some n, none =>
    if validName n then .ok ⟨n, .library, cfgDeps text⟩
    else .error .invalidModuleName
  | none, some n =>
    if validName n then .ok ⟨n, .program, cfgDeps text⟩
    else .error .invalidModuleName

/-- A pair list binds a key when some pair carries it. -/
def HasKey (ps : List (String × String)) (k : String) : Prop :=
  ∃ p ∈ ps, p.1 = k

instance (ps : List (String × String)) (k : String) : Decidable (HasKey ps k) := by
  unfold HasKey; infer_instance

/-! ### The example module layout of `src/README.md` -/

/-- `src/cfgfile/module.cfg` per README: `library = cfgfile`, no deps. -/
def cfgfileMod : ModuleDeclaration := ⟨"cfgfile", .library, []⟩

/-- `src/executor/module.cfg` per README lines 69–73: `library = executor`,
`deps = cfgfile`. -/
def executorMod : ModuleDeclaration := ⟨"executor", .library, ["cfgfile"]⟩

/-- `src/reporter/module.cfg` per README: `library = reporter`, no deps. -/
def reporterMod : ModuleDeclaration := ⟨"reporter", .library, []⟩

/-- `src/myapp/module.cfg` per README lines 75–81: `program = myapp`,
`deps = executor reporter`. -/
def myappMod : ModuleDeclaration := ⟨"myapp", .program, ["executor", "reporter"]⟩

/-- The four example modules, in the README's source-tree order. -/
def readmeModules : List ModuleDeclaration :=
  [cfgfileMod, executorMod, reporterMod, myappMod]

/-- The three example test suites of the README's `tests/` tree. -/
def readmeSuites : List TestSuiteDecl :=
  [⟨"test_cfgfile", "cfgfile"⟩, ⟨"test_executor", "executor"⟩,
   ⟨"test_reporter", "reporter"⟩]

/-- The README example source tree. -/
def readmeTree : SourceTree := ⟨readmeModules, readmeSuites, none⟩

/-- The `#include` lines of the example test suite source
(`test_executor.c`, shipped in the repository): it includes the module under
test, the generated mock header for its one dependency, and the framework. -/
def testExecutorIncludes : List String :=
  ["executor/executor.h", "mock_cfgfile.h", "unity.h"]

/-- A two-module dependency cycle: A→B, B→A. -/
def cyclicPair : List ModuleDeclaration :=
  [⟨"A", .library, ["B"]⟩, ⟨"B", .library, ["A"]⟩]

/-- An acyclic, fully name-resolved set in which a library depends on a
program: B (library) depends on A (program). -/
def progDepPair : List ModuleDeclaration :=
  [⟨"B", .library, ["A"]⟩, ⟨"A", .program, []⟩]

/-- A module whose single dependency name resolves to no declared module. -/
def unresolvedSingle : List ModuleDeclaration :=
  [⟨"A", .library, ["missing"]⟩]

/-! ### Basic facts about module lookup and edges -/

theorem findModule_mem {ms : List ModuleDeclaration} {n : String} {m : ModuleDeclaration}
    (h : findModule ms n = some m) : m ∈ ms ∧ m.name = n := by
  induction ms with
  | nil => simp [findModule] at h
  | cons a rest ih =>
    by_cases hn : a.name = n
    · simp [findModule, hn] at h
      subst h
      exact ⟨List.mem_cons_self _ _, hn⟩
    · simp [findModule, hn] at h
      obtain ⟨h1, h2⟩ := ih h
      exact ⟨List.mem_cons_of_mem _ h1, h2⟩

theorem findModule_isSome_of_mem {ms : List ModuleDeclaration} {m : ModuleDeclaration}
    (h : m ∈ ms) : (findModule ms m.name).isSome := by
  induction ms with
  | nil => simp at h
  | cons a rest ih =>
    by_cases hn : a.name = m.name
    · simp [findModule, hn]
    · rcases List.mem_cons.1 h with h1 | h1
      · subst h1; exact absurd rfl hn
      · simp [findModule, hn]
        exact ih h1

theorem findModule_self {ms : List ModuleDeclaration} {m : ModuleDeclaration}
    (hnodup : (declaredNames ms).Nodup) (hm : m ∈ ms) :
    findModule ms m.name = some m := by
  induction ms with
  | nil => simp at hm
  | cons a rest ih =>
    rw [declaredNames, List.map_cons, List.nodup_cons] at hnodup
    rcases List.mem_cons.1 hm with h1 | h1
    · subst h1; simp [findModule]
    · have hne : a.name ≠ m.name := by
        intro he
        apply hnodup.1
        rw [he]
        exact List.mem_map_of_mem ModuleDeclaration.name h1
      simp [findModule, hne]
      exact ih hnodup.2 h1

theorem mem_declaredNames_of_isSome {ms : List ModuleDeclaration} {n : String}
    (h : (findModule ms n).isSome) : n ∈ declaredNames ms := by
  rcases Option.isSome_iff_exists.1 h with ⟨m, hm⟩
  obtain ⟨h1, h2⟩ := findModule_mem hm
  simp [declaredNames]
  exact ⟨m, h1, h2⟩

theorem edge_iff {ms : List ModuleDeclaration} {a b : String} :
    Edge ms a b ↔ ∃ m, findModule ms a = some m ∧ b ∈ m.deps := by
  unfold Edge depsOf
  cases h : findModule ms a <;> simp [h]

theorem edge_src_isSome {ms : List ModuleDeclaration} {a b : String}
    (h : Edge ms a b) : (findModule ms a).isSome := by
  rcases edge_iff.1 h with ⟨m, hm, _⟩
  simp [hm]

theorem resolved_target_isSome {ms : List ModuleDeclaration} {a b : String}
    (hres : Resolved ms) (h : Edge ms a b) : (findModule ms b).isSome := by
  rcases edge_iff.1 h with ⟨m, hm, hb⟩
  exact hres m (findModule_mem hm).1 b hb

theorem edge_of_deps {ms : List ModuleDeclaration} {m : ModuleDeclaration} {d : String}
    (hf : findModule ms m.name = some m) (hd : d ∈ m.deps) : Edge ms m.name d := by
  unfold Edge depsOf
  rw [hf]
  exact hd

theorem reaches_inv {ms : List ModuleDeclaration} {a x : String}
    (h : Reaches ms a x) : ∃ d, Edge ms a d ∧ (x = d ∨ Reaches ms d x) := by
  cases h with
  | single e => exact ⟨x, e, Or.inl rfl⟩
  | cons e hr => exact ⟨_, e, Or.inr hr⟩

theorem reaches_stay {ms : List ModuleDeclaration} {D : List String}
    (hD : ∀ d ∈ D, ∀ b, Edge ms d b → b ∈ D)
    {a c : String} (h : Reaches ms a c) (ha : a ∈ D) : c ∈ D := by
  induction h with
  | single e => exact hD _ ha _ e
  | cons e _ ih => exact ih (hD _ ha _ e)

theorem reaches_snoc {ms : List ModuleDeclaration} {a b c : String}
    (h : Reaches ms a b) (e : Edge ms b c) : Reaches ms a c := by
  induction h with
  | single e' => exact .cons e' (.single e)
  | cons e' _ ih => exact .cons e' (ih e)

theorem resolvesToProgram_iff {ms : List ModuleDeclaration} {d : String} :
    resolvesToProgram ms d = true ↔
      ∃ p, findModule ms d = some p ∧ p.kind = .program := by
  unfold resolvesToProgram
  cases h : findModule ms d <;> simp [h]

/-! ### The resolution pass -/

theorem resolveDeps_ok {ms : List ModuleDeclaration} {ds : List String}
    (h : ∀ d ∈ ds, (findModule ms d).isSome) : resolveDeps ms ds = .ok () := by
  induction ds with
  | nil => rfl
  | cons d rest ih =>
    have hd := h d (List.mem_cons_self _ _)
    rcases Option.isSome_iff_exists.1 hd with ⟨m, hm⟩
    simp [resolveDeps, hm]
    exact ih fun x hx => h x (List.mem_cons_of_mem _ hx)

theorem resolveDeps_err_exists {ms : List ModuleDeclaration} {ds : List String}
    (h : ∃ d ∈ ds, findModule ms d = none) :
    ∃ d, resolveDeps ms ds = .error (.unknownDependency d) ∧
      findModule ms d = none ∧ d ∈ ds := by
  induction ds with
  | nil => simp at h
  | cons d rest ih =>
    cases hf : findModule ms d with
    | none => exact ⟨d, by simp [resolveDeps, hf], hf, List.mem_cons_self _ _⟩
    | some m =>
      obtain ⟨d', hd', hnone⟩ := h
      rcases List.mem_cons.1 hd' with h1 | h1
      · subst h1; rw [hf] at hnone; cases hnone
      · obtain ⟨d'', h2, h3, h4⟩ := ih ⟨d', h1, hnone⟩
        exact ⟨d'', by simp [resolveDeps, hf]; exact h2, h3, List.mem_cons_of_mem _ h4⟩

theorem checkResolved_ok {ms l : List ModuleDeclaration}
    (h : ∀ m ∈ l, ∀ d ∈ m.deps, (findModule ms d).isSome) :
    checkResolved ms l = .ok () := by
  induction l with
  | nil => rfl
  | cons m rest ih =>
    have h1 : resolveDeps ms m.deps = .ok () :=
      resolveDeps_ok (h m (List.mem_cons_self _ _))
    simp [checkResolved, h1, Except.bind]
    exact ih fun x hx => h x (List.mem_cons_of_mem _ hx)

theorem resolveDeps_err_inv {ms : List ModuleDeclaration} {ds : List String}
    {e : GraphError} (h : resolveDeps ms ds = .error e) :
    ∃ d, e = .unknownDependency d ∧ findModule ms d = none ∧ d ∈ ds := by
  induction ds with
  | nil => simp [resolveDeps] at h
  | cons d rest ih =>
    cases hf : findModule ms d with
    | none =>
      simp [resolveDeps, hf] at h
      exact ⟨d, h.symm, hf, List.mem_cons_self _ _⟩
    | some m =>
      simp [resolveDeps, hf] at h
      obtain ⟨d', h1, h2, h3⟩ := ih h
      exact ⟨d', h1, h2, List.mem_cons_of_mem _ h3⟩

theorem checkResolved_err_exists {ms l : List ModuleDeclaration}
    (h : ∃ m ∈ l, ∃ d ∈ m.deps, findModule ms d = none) :
    ∃ d, checkResolved ms l = .error (.unknownDependency d) ∧
      findModule ms d = none ∧ ∃ m ∈ l, d ∈ m.deps := by
  induction l with
  | nil => simp at h
  | cons m rest ih =>
    cases hr : resolveDeps ms m.deps with
    | error e =>
      obtain ⟨d, he, hnone, hmem⟩ := resolveDeps_err_inv hr
      subst he
      refine ⟨d, ?_, hnone, m, List.mem_cons_self _ _, hmem⟩
      simp [checkResolved, hr, Except.bind]
    | ok u =>
      cases u
      have hall : ∀ d ∈ m.deps, (findModule ms d).isSome := by
        intro d hd
        cases hf : findModule ms d with
        | none =>
          obtain ⟨d', h1, h2, h3⟩ := resolveDeps_err_exists ⟨d, hd, hf⟩
          rw [h1] at hr
          cases hr
        | some _ => simp
      obtain ⟨m', hm', d', hd', hnone⟩ := h
      rcases List.mem_cons.1 hm' with h1 | h1
      · subst h1
        have := hall d' hd'
        rw [hnone] at this
        cases this
      · obtain ⟨d, h2, h3, m'', h4, h5⟩ := ih ⟨m', h1, d', hd', hnone⟩
        refine ⟨d, ?_, h3, m'', List.mem_cons_of_mem _ h4, h5⟩
        simp [checkResolved, hr, Except.bind]
        exact h2

/-! ### The program-dependency pass -/

theorem progFree_ok {ms : List ModuleDeclaration} {ds : List String}
    (h : ∀ d ∈ ds, resolvesToProgram ms d = false) : progFree ms ds = .ok () := by
  induction ds with
  | nil => rfl
  | cons d rest ih =>
    have hd := h d (List.mem_cons_self _ _)
    simp [progFree, hd]
    exact ih fun x hx => h x (List.mem_cons_of_mem _ hx)

theorem progFree_ok_inv {ms : List ModuleDeclaration} {ds : List String}
    (h : progFree ms ds = .ok ()) : ∀ d ∈ ds, resolvesToProgram ms d = false := by
  induction ds with
  | nil => simp
  | cons d rest ih =>
    cases hf : resolvesToProgram ms d with
    | true => simp [progFree, hf] at h
    | false =>
      simp [progFree, hf] at h
      intro x hx
      rcases List.mem_cons.1 hx with h1 | h1
      · subst h1; exact hf
      · exact ih h x h1

theorem progFree_err_exists {ms : List ModuleDeclaration} {ds : List String}
    (h : ∃ d ∈ ds, resolvesToProgram ms d = true) :
    ∃ d, progFree ms ds = .error (.cannotDependOnProgram d) ∧
      resolvesToProgram ms d = true ∧ d ∈ ds := by
  induction ds with
  | nil => simp at h
  | cons d rest ih =>
    cases hf : resolvesToProgram ms d with
    | true => exact ⟨d, by simp [progFree, hf], hf, List.mem_cons_self _ _⟩
    | false =>
      obtain ⟨d', hd', htrue⟩ := h
      rcases List.mem_cons.1 hd' with h1 | h1
      · subst h1; rw [hf] at htrue; cases htrue
      · obtain ⟨d'', h2, h3, h4⟩ := ih ⟨d', h1, htrue⟩
        exact ⟨d'', by simp [progFree, hf]; exact h2, h3, List.mem_cons_of_mem _ h4⟩

theorem checkPrograms_ok {ms l : List ModuleDeclaration}
    (h : ∀ m ∈ l, ∀ d ∈ m.deps, resolvesToProgram ms d = false) :
    checkPrograms ms l = .ok () := by
  induction l with
  | nil => rfl
  | cons m rest ih =>
    have h1 : progFree ms m.deps = .ok () := progFree_ok (h m (List.mem_cons_self _ _))
    simp [checkPrograms, h1, Except.bind]
    exact ih fun x hx => h x (List.mem_cons_of_mem _ hx)

theorem checkPrograms_ok_inv {ms l : List ModuleDeclaration}
    (h : checkPrograms ms l = .ok ()) :
    ∀ m ∈ l, ∀ d ∈ m.deps, resolvesToProgram ms d = false := by
  induction l with
  | nil => simp
  | cons m rest ih =>
    cases hp : progFree ms m.deps with
    | error e => simp [checkPrograms, hp, Except.bind] at h
    | ok u =>
      cases u
      simp [checkPrograms, hp, Except.bind] at h
      intro m' hm'
      rcases List.mem_cons.1 hm' with h1 | h1
      · subst h1; exact progFree_ok_inv hp
      · exact ih h m' h1

theorem checkPrograms_err_exists {ms l : List ModuleDeclaration}
    (h : ∃ m ∈ l, ∃ d ∈ m.deps, resolvesToProgram ms d = true) :
    ∃ d, checkPrograms ms l = .error (.cannotDependOnProgram d) ∧
      resolvesToProgram ms d = true ∧ ∃ m ∈ l, d ∈ m.deps := by
  induction l with
  | nil => simp at h
  | cons m rest ih =>
    cases hp : progFree ms m.deps with
    | error e =>
      obtain ⟨d', hd', htrue⟩ :
          ∃ d ∈ m.deps, resolvesToProgram ms d = true := by
        by_contra hno
        push_neg at hno
        have : progFree ms m.deps = .ok () := progFree_ok (by
          intro d hd
          have := hno d hd
          cases hres : resolvesToProgram ms d with
          | true => exact absurd hres this
          | false => rfl)
        rw [this] at hp
        cases hp
      obtain ⟨d, h1, h2, h3⟩ := progFree_err_exists ⟨d', hd', htrue⟩
      refine ⟨d, ?_, h2, m, List.mem_cons_self _ _, h3⟩
      simp [checkPrograms, h1, Except.bind]
    | ok u =>
      cases u
      obtain ⟨m', hm', d', hd', htrue⟩ := h
      rcases List.mem_cons.1 hm' with h1 | h1
      · subst h1
        have := progFree_ok_inv hp d' hd'
        rw [htrue] at this
        cases this
      · obtain ⟨d, h2, h3, m'', h4, h5⟩ := ih ⟨m', h1, d', hd', htrue⟩
        refine ⟨d, ?_, h3, m'', List.mem_cons_of_mem _ h4, h5⟩
        simp [checkPrograms, hp, Except.bind]
        exact h2

/-! ### Stage composition of the pipeline -/

theorem planProject_err_resolve {t : SourceTree} {e : GraphError}
    (h : checkResolved t.modules t.modules = .error e) :
    planProject t = .error (.graph e) := by
  simp [planProject, h, Except.mapError, Except.bind]

theorem planProject_err_prog {t : SourceTree} {e : GraphError}
    (h1 : checkResolved t.modules t.modules = .ok ())
    (h2 : checkPrograms t.modules t.modules = .error e) :
    planProject t = .error (.graph e) := by
  simp [planProject, h1, h2, Except.mapError, Except.bind]

theorem planProject_err_cycle {t : SourceTree} {e : GraphError}
    (h1 : checkResolved t.modules t.modules = .ok ())
    (h2 : checkPrograms t.modules t.modules = .ok ())
    (h3 : checkAcyclicAll t.modules = .error e) :
    planProject t = .error (.graph e) := by
  simp [planProject, h1, h2, h3, Except.mapError, Except.bind]

theorem planProject_ok_build {t : SourceTree} {lo : List (String × List String)}
    {ps : List PlannedSuite}
    (h1 : checkResolved t.modules t.modules = .ok ())
    (h2 : checkPrograms t.modules t.modules = .ok ())
    (h3 : checkAcyclicAll t.modules = .ok ())
    (h4 : buildLinkOrders t.modules t.modules = .ok lo)
    (h5 : checkSuiteNames t.suites = .ok ())
    (h6 : planSuites t.modules t.suites = .ok ps) :
    planProject t = .ok ⟨lo, ps⟩ := by
  simp [planProject, h1, h2, h3, h4, h5, h6, Except.mapError, Except.bind, Except.map]

theorem planProject_ok_inv {t : SourceTree} {pp : ProjectPlan}
    (h : planProject t = .ok pp) :
    checkResolved t.modules t.modules = .ok () ∧
    checkPrograms t.modules t.modules = .ok () ∧
    checkAcyclicAll t.modules = .ok () ∧
    buildLinkOrders t.modules t.modules = .ok pp.linkOrders ∧
    checkSuiteNames t.suites = .ok () ∧
    planSuites t.modules t.suites = .ok pp.suites := by
  unfold planProject at h
  cases h1 : checkResolved t.modules t.modules with
  | error e => rw [h1] at h; simp [Except.mapError, Except.bind] at h
  | ok u =>
    cases u
    rw [h1] at h
    cases h2 : checkPrograms t.modules t.modules with
    | error e => rw [h2] at h; simp [Except.mapError, Except.bind] at h
    | ok u =>
      cases u
      rw [h2] at h
      cases h3 : checkAcyclicAll t.modules with
      | error e => rw [h3] at h; simp [Except.mapError, Except.bind] at h
      | ok u =>
        cases u
        rw [h3] at h
        cases h4 : buildLinkOrders t.modules t.modules with
        | error e => rw [h4] at h; simp [Except.mapError, Except.bind] at h
        | ok lo =>
          rw [h4] at h
          cases h5 : checkSuiteNames t.suites with
          | error e => rw [h5] at h; simp [Except.mapError, Except.bind] at h
          | ok u =>
            cases u
            rw [h5] at h
            cases h6 : planSuites t.modules t.suites with
            | error e => rw [h6] at h; simp [Except.mapError, Except.bind, Except.map] at h
            | ok ps =>
              rw [h6] at h
              simp [Except.mapError, Except.bind, Except.map] at h
              subst h
              exact ⟨rfl, rfl, rfl, rfl, rfl, rfl⟩

theorem generate_err {t : SourceTree} {e : GenError}
    (h : planProject t = .error e) : generate t = .error e := by
  simp [generate, h, Except.map]

/-! ### Claim C4 -/

/-- C4: for every module set in which some module's dependency list contains
a name that is not the name of any declared module, the generator fails with
`GraphError.unknownDependency`, and the error names the missing module (a
name that resolves to no declared module yet appears in some module's
dependency list). -/
theorem claim4_unknown_dependency (ms : List ModuleDeclaration)
    (suites : List TestSuiteDecl) (ext : Option String)
    (h : ∃ m ∈ ms, ∃ d ∈ m.deps, findModule ms d = none) :
    ∃ d, generate ⟨ms, suites, ext⟩ = .error (.graph (.unknownDependency d)) ∧
      findModule ms d = none ∧ ∃ m ∈ ms, d ∈ m.deps := by
  obtain ⟨d, h1, h2, h3⟩ := checkResolved_err_exists h
  exact ⟨d, generate_err (planProject_err_resolve h1), h2, h3⟩

/-- Witness for C4 at the concrete one-module set whose dependency
`missing` is undeclared. -/
theorem claim4_witness :
    ∃ d, generate ⟨unresolvedSingle, [], none⟩ =
        .error (.graph (.unknownDependency d)) ∧
      findModule unresolvedSingle d = none ∧ ∃ m ∈ unresolvedSingle, d ∈ m.deps :=
  claim4_unknown_dependency unresolvedSingle [] none
    ⟨⟨"A", .library, ["missing"]⟩, by decide, "missing", by decide, by decide⟩

/-! ### Claim C5 -/

/-- C5: a dependency on a Program-kind module is rejected — in a module set
whose names all resolve, a declared dependency on a program makes the
generator fail with `GraphError.cannotDependOnProgram` naming that
dependency; and in every successfully validated project no module's
dependency resolves to a Program-kind module (no program has an incoming
dependency edge). -/
theorem claim5_no_program_deps :
    (∀ (ms : List ModuleDeclaration) (suites : List TestSuiteDecl)
        (ext : Option String), Resolved ms →
      (∃ m ∈ ms, ∃ d ∈ m.deps, resolvesToProgram ms d = true) →
      ∃ d p, generate ⟨ms, suites, ext⟩ =
          .error (.graph (.cannotDependOnProgram d)) ∧
        findModule ms d = some p ∧ p.kind = .program ∧ ∃ m ∈ ms, d ∈ m.deps) ∧
    (∀ (t : SourceTree) (pp : ProjectPlan), planProject t = .ok pp →
      ∀ m ∈ t.modules, ∀ d ∈ m.deps, ∀ p, findModule t.modules d = some p →
        p.kind ≠ .program) := by
  constructor
  · intro ms suites ext hres hex
    obtain ⟨d, h1, h2, h3⟩ := checkPrograms_err_exists hex
    obtain ⟨p, hp1, hp2⟩ := resolvesToProgram_iff.1 h2
    have hcr : checkResolved ms ms = .ok () := checkResolved_ok hres
    exact ⟨d, p, generate_err (planProject_err_prog hcr h1), hp1, hp2, h3⟩
  · intro t pp h m hm d hd p hp hk
    have h2 := (planProject_ok_inv h).2.1
    have htrue : resolvesToProgram t.modules d = true :=
      resolvesToProgram_iff.2 ⟨p, hp, hk⟩
    rw [checkPrograms_ok_inv h2 m hm d hd] at htrue
    cases htrue

/-- Witness for C5 at the concrete two-module set in which library `B`
depends on program `A`. -/
theorem claim5_witness :
    ∃ d p, generate ⟨progDepPair, [], none⟩ =
        .error (.graph (.cannotDependOnProgram d)) ∧
      findModule progDepPair d = some p ∧ p.kind = .program ∧
      ∃ m ∈ progDepPair, d ∈ m.deps :=
  claim5_no_program_deps.1 progDepPair [] none (by decide)
    ⟨⟨"B", .library, ["A"]⟩, by decide, "A", by decide, by decide⟩

/-! ### Claim C8 -/

theorem runGenerator_tree (fs : FileSystem) : (runGenerator fs).tree = fs.tree := by
  unfold runGenerator
  cases generate fs.tree <;> rfl

/-- C8: the generator is deterministic and idempotent — running it twice on
an unchanged tree is the same as running it once, and in particular both
runs leave byte-identical output. (In this model the emitter is a pure
function of the validated state, so equal states trivially render to equal
bytes; the content of this theorem is that a second run recomputes the very
same output from the unchanged tree.) -/
theorem claim8_idempotent (fs : FileSystem) :
    runGenerator (runGenerator fs) = runGenerator fs ∧
    (runGenerator (runGenerator fs)).output = (runGenerator fs).output := by
  have key : runGenerator (runGenerator fs) = runGenerator fs := by
    cases hg : generate fs.tree with
    | ok text =>
      have h1 : runGenerator fs = { fs with output := some text } := by
        unfold runGenerator; rw [hg]
      rw [h1]
      unfold runGenerator
      have h2 : generate ({ fs with output := some text } : FileSystem).tree =
          .ok text := hg
      rw [h2]
    | error e =>
      have h1 : runGenerator fs = fs := by unfold runGenerator; rw [hg]
      rw [h1, h1]
  exact ⟨key, by rw [key]⟩

/-! ### Claim C9 -/

/-- C9: failure is atomic with respect to the output file — whenever any
stage of the pipeline fails with an error, the run leaves the filesystem
(and in particular the previously existing output descriptor, if any)
completely unchanged. -/
theorem claim9_no_output_on_failure (fs : FileSystem) (e : GenError)
    (h : generate fs.tree = .error e) :
    runGenerator fs = fs ∧ (runGenerator fs).output = fs.output := by
  have key : runGenerator fs = fs := by unfold runGenerator; rw [h]
  exact ⟨key, by rw [key]⟩

/-- Witness for C9: on the cyclic two-module input the run fails and the
previously existing output bytes survive untouched. -/
theorem claim9_witness :
    runGenerator ⟨⟨cyclicPair, [], none⟩, some "previous contents"⟩ =
        ⟨⟨cyclicPair, [], none⟩, some "previous contents"⟩ ∧
      (runGenerator ⟨⟨cyclicPair, [], none⟩, some "previous contents"⟩).output =
        some "previous contents" :=
  claim9_no_output_on_failure _ (.graph (.dependencyCycle ["A", "B"])) rfl

/-! ### Claim C2 -/

/-- C2: on the README's four-module example (`cfgfile`, `executor`,
`reporter` libraries, `myapp` program with deps `executor reporter`), the
generator succeeds, `myapp`'s emitted link order contains exactly
`executor`, `cfgfile`, `reporter` with `cfgfile` placed after `executor`,
and the planned `test_executor` suite has exactly one mock target, for
`cfgfile`. -/
theorem claim2_readme_example :
    ∃ pp, planProject readmeTree = .ok pp ∧
      (∃ L, lookupPlan pp.linkOrders "myapp" = some L ∧
        L.Perm ["executor", "cfgfile", "reporter"] ∧
        L.indexOf "executor" < L.indexOf "cfgfile") ∧
      (∃ ps ∈ pp.suites, ps.suiteName = "test_executor" ∧
        ps.mocks.map (fun t => t.dep) = ["cfgfile"]) ∧
      (∀ ps ∈ pp.suites, ps.suiteName = "test_executor" →
        ps.mocks.map (fun t => t.dep) = ["cfgfile"]) := by
  refine ⟨_, rfl,
    ⟨["reporter", "executor", "cfgfile"], rfl, by decide, by decide⟩, ?_, ?_⟩
  · exact ⟨⟨"test_executor", "executor", [mkMockTarget "cfgfile"]⟩, by decide,
      rfl, rfl⟩
  · decide

/-! ### Claim C6 -/

theorem getVal_isSome_iff {ps : List (String × String)} {k : String} :
    (getVal ps k).isSome = true ↔ HasKey ps k := by
  induction ps with
  | nil => simp [getVal, HasKey]
  | cons p rest ih =>
    by_cases h : p.1 = k
    · constructor
      · intro _; exact ⟨p, List.mem_cons_self _ _, h⟩
      · intro _; simp [getVal, h]
    · have hr : getVal (p :: rest) k = getVal rest k := by simp [getVal, h]
      constructor
      · intro hs
        rw [hr] at hs
        obtain ⟨q, hq, hqk⟩ := ih.1 hs
        exact ⟨q, List.mem_cons_of_mem _ hq, hqk⟩
      · rintro ⟨q, hq, hqk⟩
        rcases List.mem_cons.1 hq with h1 | h1
        · subst h1; exact absurd hqk h
        · rw [hr]; exact ih.2 ⟨q, h1, hqk⟩

theorem validName_iff {s : String} :
    validName s = true ↔ MatchesNamePattern s := by
  unfold validName MatchesNamePattern
  cases h : s.data with
  | nil => simp [h]
  | cons c rest =>
    show (isAlphaChar c && rest.all isAlphaNumChar) = true ↔ _
    simp only [Bool.and_eq_true, List.all_eq_true]
    constructor
    · rintro ⟨h1, h2⟩
      exact ⟨c, rest, rfl, h1, fun d hd => h2 d hd⟩
    · rintro ⟨c', rest', heq, h1, h2⟩
      injection heq with hc hr
      subst hc; subst hr
      exact ⟨h1, fun d hd => h2 d hd⟩

/-- C6: the module descriptor parser fails with
`ConfigError.ambiguousModuleKind` when the text binds both of the keys
`library` and `program` or neither; when exactly one kind key is bound but
its name does not match `^[A-Za-z][A-Za-z0-9]*$` it fails with
`ConfigError.invalidModuleName`; otherwise it returns the declaration with
that kind, name and declared dependencies. -/
theorem claim6_parser_contract (text : String) :
    ((HasKey (parsePairs text) "library" ↔ HasKey (parsePairs text) "program") →
      parseModuleCfg text = .error .ambiguousModuleKind) ∧
    (∀ n, getVal (parsePairs text) "library" = some n →
      ¬ HasKey (parsePairs text) "program" →
      (¬ MatchesNamePattern n → parseModuleCfg text = .error .invalidModuleName) ∧
      (MatchesNamePattern n →
        parseModuleCfg text = .ok ⟨n, .library, cfgDeps text⟩)) ∧
    (∀ n, getVal (parsePairs text) "program" = some n →
      ¬ HasKey (parsePairs text) "library" →
      (¬ MatchesNamePattern n → parseModuleCfg text = .error .invalidModuleName) ∧
      (MatchesNamePattern n →
        parseModuleCfg text = .ok ⟨n, .program, cfgDeps text⟩)) := by
  refine ⟨?_, ?_, ?_⟩
  · intro hiff
    unfold parseModuleCfg
    cases hl : getVal (parsePairs text) "library" with
    | some a =>
      cases hp : getVal (parsePairs text) "program" with
      | some b => simp [hl, hp]
      | none =>
        exfalso
        have h1 : HasKey (parsePairs text) "library" :=
          getVal_isSome_iff.1 (by simp [hl])
        have h2 := getVal_isSome_iff.2 (hiff.1 h1)
        simp [hp] at h2
    | none =>
      cases hp : getVal (parsePairs text) "program" with
      | some b =>
        exfalso
        have h2 : HasKey (parsePairs text) "program" :=
          getVal_isSome_iff.1 (by simp [hp])
        have h1 := getVal_isSome_iff.2 (hiff.2 h2)
        simp [hl] at h1
      | none => simp [hl, hp]
  · intro n hn hnp
    have hp : getVal (parsePairs text) "program" = none := by
      cases hp : getVal (parsePairs text) "program" with
      | some b => exact absurd (getVal_isSome_iff.1 (by simp [hp])) hnp
      | none => rfl
    constructor
    · intro hbad
      have hv : validName n = false := by
        cases hv : validName n with
        | true => exact absurd (validName_iff.1 hv) hbad
        | false => rfl
      unfold parseModuleCfg
      simp [hn, hp, hv]
    · intro hgood
      have hv : validName n = true := validName_iff.2 hgood
      unfold parseModuleCfg
      simp [hn, hp, hv]
  · intro n hn hnl
    have hl : getVal (parsePairs text) "library" = none := by
      cases hl : getVal (parsePairs text) "library" with
      | some b => exact absurd (getVal_isSome_iff.1 (by simp [hl])) hnl
      | none => rfl
    constructor
    · intro hbad
      have hv : validName n = false := by
        cases hv : validName n with
        | true => exact absurd (validName_iff.1 hv) hbad
        | false => rfl
      unfold parseModuleCfg
      simp [hn, hl, hv]
    · intro hgood
      have hv : validName n = true := validName_iff.2 hgood
      unfold parseModuleCfg
      simp [hn, hl, hv]

/-- Witness for C6 at concrete descriptor texts: a text binding both kind
keys is ambiguous, and the README's `executor` descriptor parses to the
expected library declaration. -/
theorem claim6_witness :
    parseModuleCfg "library = myapp\nprogram = myapp" =
        .error .ambiguousModuleKind ∧
    parseModuleCfg "[module]\nlibrary = executor\ndeps = cfgfile" =
      .ok ⟨"executor", .library, ["cfgfile"]⟩ := by
  constructor
  · exact (claim6_parser_contract "library = myapp\nprogram = myapp").1 (by decide)
  · exact ((claim6_parser_contract "[module]\nlibrary = executor\ndeps = cfgfile").2.1
      "executor" (by decide) (by decide)).2 (by decide)

/-! ### Claim C7 -/

theorem planSuite_ok_inv {ms : List ModuleDeclaration} {s : TestSuiteDecl}
    {ps : PlannedSuite} (h : planSuite ms s = .ok ps) :
    ∃ m, findModule ms s.moduleName = some m ∧
      ps = ⟨s.suiteName, s.moduleName, m.deps.map mkMockTarget⟩ := by
  unfold planSuite at h
  cases hf : findModule ms s.moduleName with
  | none => rw [hf] at h; cases h
  | some m => rw [hf] at h; cases h; exact ⟨m, rfl, rfl⟩

theorem planSuites_mem {ms : List ModuleDeclaration} {suites : List TestSuiteDecl}
    {ps' : List PlannedSuite} (h : planSuites ms suites = .ok ps') :
    ∀ ps ∈ ps', ∃ s ∈ suites, planSuite ms s = .ok ps := by
  induction suites generalizing ps' with
  | nil =>
    simp [planSuites] at h
    subst h
    simp
  | cons s rest ih =>
    unfold planSuites at h
    cases h1 : planSuite ms s with
    | error e => rw [h1] at h; cases h
    | ok p =>
      rw [h1] at h
      cases h2 : planSuites ms rest with
      | error e => rw [h2] at h; cases h
      | ok tail' =>
        rw [h2] at h
        simp [Except.bind, Except.map] at h
        subst h
        intro ps hps
        rcases List.mem_cons.1 hps with h3 | h3
        · subst h3; exact ⟨s, List.mem_cons_self _ _, h1⟩
        · obtain ⟨s', hs', hp'⟩ := ih h2 ps h3
          exact ⟨s', List.mem_cons_of_mem _ hs', hp'⟩

/-- C7: for every test suite accepted by the planner (within a successful
generator run), its mock targets are exactly the direct dependencies of the
module under test — one mock per direct dependency, every mock is a direct
dependency edge, and no transitive non-direct dependency gets a mock. -/
theorem claim7_mocks_are_direct_deps (t : SourceTree) (pp : ProjectPlan)
    (h : planProject t = .ok pp) :
    ∀ ps ∈ pp.suites, ∃ m, findModule t.modules ps.moduleName = some m ∧
      ps.mocks.map (fun tg => tg.dep) = m.deps ∧
      (∀ tg ∈ ps.mocks, Edge t.modules ps.moduleName tg.dep) ∧
      (∀ d, Reaches t.modules ps.moduleName d → ¬ Edge t.modules ps.moduleName d →
        ∀ tg ∈ ps.mocks, tg.dep ≠ d) := by
  intro ps hps
  have h6 := (planProject_ok_inv h).2.2.2.2.2
  obtain ⟨s, hs, hok⟩ := planSuites_mem h6 ps hps
  obtain ⟨m, hf, hdef⟩ := planSuite_ok_inv hok
  subst hdef
  refine ⟨m, hf, ?_, ?_, ?_⟩
  · show (m.deps.map mkMockTarget).map (fun tg => tg.dep) = m.deps
    rw [List.map_map]
    exact List.map_id m.deps
  · intro tg htg
    obtain ⟨d, hd, hdef⟩ := List.mem_map.1 htg
    subst hdef
    show (mkMockTarget d).dep ∈ depsOf t.modules s.moduleName
    unfold depsOf
    rw [hf]
    exact hd
  · intro d hreach hnedge tg htg heq
    obtain ⟨d', hd', hdef⟩ := List.mem_map.1 htg
    subst hdef
    apply hnedge
    rw [← heq]
    show (mkMockTarget d').dep ∈ depsOf t.modules s.moduleName
    unfold depsOf
    rw [hf]
    exact hd'

/-- Witness for C7 at the README example: the planned `test_executor` suite
mocks exactly `executor`'s one direct dependency `cfgfile`. -/
theorem claim7_witness :
    ∃ m, findModule readmeModules "executor" = some m ∧
      ([mkMockTarget "cfgfile"].map (fun tg => tg.dep) = m.deps) ∧
      (∀ tg ∈ [mkMockTarget "cfgfile"], Edge readmeModules "executor" tg.dep) ∧
      (∀ d, Reaches readmeModules "executor" d → ¬ Edge readmeModules "executor" d →
        ∀ tg ∈ [mkMockTarget "cfgfile"], tg.dep ≠ d) :=
  claim7_mocks_are_direct_deps readmeTree _ rfl
    ⟨"test_executor", "executor", [mkMockTarget "cfgfile"]⟩ (by decide)

/-! ### Claim C10 -/

/-- C10: every planned mock target for a dependency named `d` carries the
generated mock header name `mock_<d>.h`, and the repository's example test
suite source includes exactly that name (`mock_cfgfile.h`) for its
dependency `cfgfile`. -/
theorem claim10_mock_header_naming :
    (∀ (ms : List ModuleDeclaration) (suites : List TestSuiteDecl)
        (ps' : List PlannedSuite), planSuites ms suites = .ok ps' →
      ∀ ps ∈ ps', ∀ tg ∈ ps.mocks, tg.mockHeader = "mock_" ++ tg.dep ++ ".h") ∧
    (mkMockTarget "cfgfile").mockHeader ∈ testExecutorIncludes := by
  constructor
  · intro ms suites ps' h ps hps tg htg
    obtain ⟨s, hs, hok⟩ := planSuites_mem h ps hps
    obtain ⟨m, hf, hdef⟩ := planSuite_ok_inv hok
    subst hdef
    obtain ⟨d, hd, hdef⟩ := List.mem_map.1 htg
    subst hdef
    rfl
  · decide

/-- Witness for C10: the mock target for dependency `cfgfile` in the README
example is planned with header name `mock_cfgfile.h`. -/
theorem claim10_witness :
    (mkMockTarget "cfgfile").mockHeader = "mock_" ++ "cfgfile" ++ ".h" :=
  claim10_mock_header_naming.1 readmeModules readmeSuites
    [⟨"test_cfgfile", "cfgfile", []⟩,
     ⟨"test_executor", "executor", [mkMockTarget "cfgfile"]⟩,
     ⟨"test_reporter", "reporter", []⟩] rfl
    ⟨"test_executor", "executor", [mkMockTarget "cfgfile"]⟩ (by decide)
    (mkMockTarget "cfgfile") (by decide)

/-! ### Chains, cycles and the reported cycle path -/

theorem chainList_suffix {ms : List ModuleDeclaration} :
    ∀ (l₁ l₂ : List String), ChainList ms (l₁ ++ l₂) → ChainList ms l₂ := by
  intro l₁
  induction l₁ with
  | nil => intro l₂ h; exact h
  | cons a l₁ ih =>
    intro l₂ h
    simp only [List.cons_append] at h
    apply ih
    cases hl : l₁ ++ l₂ with
    | nil => trivial
    | cons b t =>
      rw [hl] at h
      exact (show Edge ms a b ∧ ChainList ms (b :: t) from h).2

theorem chainList_extend {ms : List ModuleDeclaration} :
    ∀ (l : List String) (n d : String),
      ChainList ms (l ++ [n]) → Edge ms n d → ChainList ms (l ++ [n, d]) := by
  intro l
  induction l with
  | nil =>
    intro n d _ e
    exact ⟨e, trivial⟩
  | cons a l' ih =>
    intro n d h e
    simp only [List.cons_append] at h ⊢
    cases l' with
    | nil =>
      have h' : Edge ms a n ∧ ChainList ms [n] := h
      exact ⟨h'.1, e, trivial⟩
    | cons b t =>
      simp only [List.cons_append] at h ⊢
      have h' : Edge ms a b ∧ ChainList ms (b :: (t ++ [n])) := h
      have h2 : ChainList ms ((b :: t) ++ [n, d]) := ih n d h'.2 e
      simp only [List.cons_append] at h2
      exact ⟨h'.1, h2⟩

theorem chainList_reaches {ms : List ModuleDeclaration} :
    ∀ (l : List String) (a b : String),
      ChainList ms (a :: (l ++ [b])) → Reaches ms a b := by
  intro l
  induction l with
  | nil =>
    intro a b h
    exact .single (show Edge ms a b ∧ ChainList ms [b] from h).1
  | cons c t ih =>
    intro a b h
    have h' : Edge ms a c ∧ ChainList ms (c :: (t ++ [b])) := h
    exact .cons h'.1 (ih c b h'.2)

theorem cycleList_hasCycle {ms : List ModuleDeclaration} {c : List String}
    (h : CycleList ms c) : HasCycle ms := by
  cases c with
  | nil => exact h.elim
  | cons x rest =>
    have h' : ChainList ms (x :: (rest ++ [x])) := by
      have : ChainList ms ((x :: rest) ++ [x]) := h
      simpa using this
    exact ⟨x, chainList_reaches rest x x h'⟩

theorem dropUntil_spec {n : String} : ∀ {path : List String}, n ∈ path →
    ∃ pre tail, path = pre ++ (n :: tail) ∧ dropUntil n path = n :: tail := by
  intro path
  induction path with
  | nil => intro h; simp at h
  | cons p rest ih =>
    intro h
    by_cases hp : p = n
    · subst hp
      exact ⟨[], rest, rfl, by simp [dropUntil]⟩
    · have hmem : n ∈ rest := by
        rcases List.mem_cons.1 h with h1 | h1
        · exact absurd h1.symm hp
        · exact h1
      obtain ⟨pre, tail, h1, h2⟩ := ih hmem
      refine ⟨p :: pre, tail, ?_, ?_⟩
      · rw [List.cons_append, ← h1]
      · simp only [dropUntil, if_neg hp]
        exact h2

theorem length_le_of_nodup_subset {l₁ l₂ : List String}
    (h1 : l₁.Nodup) (h2 : ∀ x ∈ l₁, x ∈ l₂) : l₁.length ≤ l₂.length := by
  classical
  have e2 : l₁.toFinset ⊆ l₂.toFinset := by
    intro x hx
    rw [List.mem_toFinset] at hx ⊢
    exact h2 x hx
  calc l₁.length = l₁.toFinset.card := (List.toFinset_card_of_nodup h1).symm
    _ ≤ l₂.toFinset.card := Finset.card_le_card e2
    _ ≤ l₂.length := l₂.toFinset_card_le

/-! ### Equations of the traversal -/

theorem visit_in_path {ms : List ModuleDeclaration} {fuel : Nat}
    {path V : List String} {n : String} (h1 : n ∈ path) :
    visit ms (fuel + 1) path V n =
      .error (.dependencyCycle (dropUntil n path)) := by
  rw [visit, if_pos h1]

theorem visit_in_visited {ms : List ModuleDeclaration} {fuel : Nat}
    {path V : List String} {n : String} (h1 : n ∉ path) (h2 : n ∈ V) :
    visit ms (fuel + 1) path V n = .ok V := by
  rw [visit, if_neg h1, if_pos h2]

theorem visit_unknown {ms : List ModuleDeclaration} {fuel : Nat}
    {path V : List String} {n : String} (h1 : n ∉ path) (h2 : n ∉ V)
    (hf : findModule ms n = none) :
    visit ms (fuel + 1) path V n = .error (.unknownDependency n) := by
  rw [visit, if_neg h1, if_neg h2, hf]

theorem visit_step {ms : List ModuleDeclaration} {fuel : Nat}
    {path V : List String} {n : String} {m : ModuleDeclaration}
    (h1 : n ∉ path) (h2 : n ∉ V) (hf : findModule ms n = some m) :
    visit ms (fuel + 1) path V n =
      match exceptFold (fun v d => visit ms fuel (path ++ [n]) v d) V m.deps with
      | .error e => .error e
      | .ok v => .ok (v ++ [n]) := by
  rw [visit, if_neg h1, if_neg h2, hf]

/-! ### Error characterization of the traversal -/

theorem exceptFold_error_exists
    {f : List String → String → Except GraphError (List String)} :
    ∀ {ds : List String} {V : List String} {e : GraphError},
      exceptFold f V ds = .error e → ∃ d ∈ ds, ∃ v, f v d = .error e := by
  intro ds
  induction ds with
  | nil => intro V e h; cases h
  | cons d rest ih =>
    intro V e h
    cases hv : f V d with
    | error e' =>
      rw [exceptFold, hv] at h
      cases h
      exact ⟨d, List.mem_cons_self _ _, V, hv⟩
    | ok V' =>
      rw [exceptFold, hv] at h
      obtain ⟨d', h1, v, h2⟩ := ih h
      exact ⟨d', List.mem_cons_of_mem _ h1, v, h2⟩

/-- Any error produced by a `visit` call whose entry point satisfies the
path invariants is a genuine dependency cycle: the active path together
with the current node is a chain of edges, every path entry resolves, and
the fuel exceeds the number of names the path could still absorb. -/
theorem visit_err_cycle {ms : List ModuleDeclaration} (hres : Resolved ms) :
    ∀ (fuel : Nat) (path V : List String) (n : String) (e : GraphError),
      visit ms fuel path V n = .error e →
      (findModule ms n).isSome →
      (∀ p ∈ path, (findModule ms p).isSome) → path.Nodup →
      ChainList ms (path ++ [n]) →
      (declaredNames ms).length < fuel + path.length →
      ∃ c, e = .dependencyCycle c ∧ CycleList ms c := by
  intro fuel
  induction fuel with
  | zero =>
    intro path V n e h hn hpath hnd hch hlen
    exfalso
    have hsub : ∀ p ∈ path, p ∈ declaredNames ms :=
      fun p hp => mem_declaredNames_of_isSome (hpath p hp)
    have := length_le_of_nodup_subset hnd hsub
    omega
  | succ fuel ih =>
    intro path V n e h hn hpath hnd hch hlen
    by_cases h1 : n ∈ path
    · rw [visit_in_path h1] at h
      cases h
      obtain ⟨pre, tail, hsplit, hdrop⟩ := dropUntil_spec h1
      refine ⟨n :: tail, by rw [hdrop], ?_⟩
      show ChainList ms ((n :: tail) ++ [n])
      apply chainList_suffix pre
      rw [← List.append_assoc, ← hsplit]
      exact hch
    · by_cases h2 : n ∈ V
      · rw [visit_in_visited h1 h2] at h
        cases h
      · cases hf : findModule ms n with
        | none => rw [hf] at hn; cases hn
        | some m =>
          rw [visit_step h1 h2 hf] at h
          cases hfold : exceptFold (fun v d => visit ms fuel (path ++ [n]) v d)
              V m.deps with
          | ok v => rw [hfold] at h; cases h
          | error e' =>
            rw [hfold] at h
            cases h
            obtain ⟨d, hd, v, hv⟩ := exceptFold_error_exists hfold
            have hmem : m ∈ ms := (findModule_mem hf).1
            have hedge : Edge ms n d := by
              show d ∈ depsOf ms n
              unfold depsOf
              rw [hf]
              exact hd
            apply ih (path ++ [n]) v d _ hv
            · exact hres m hmem d hd
            · intro p hp
              rcases List.mem_append.1 hp with hp1 | hp1
              · exact hpath p hp1
              · rw [List.mem_singleton.1 hp1, hf]; rfl
            · simp [List.nodup_append, hnd, h1]
            · rw [List.append_assoc]
              exact chainList_extend path n d hch hedge
            · simp only [List.length_append, List.length_singleton]
              omega

/-! ### Success characterization of the traversal -/

theorem inv_nil (ms : List ModuleDeclaration) : Inv ms [] :=
  ⟨List.nodup_nil, List.Pairwise.nil, by simp [Closed], by simp⟩

theorem exceptFold_ok_spec (ms : List ModuleDeclaration) (path : List String)
    (f : List String → String → Except GraphError (List String))
    (hvisit : ∀ V n V', f V n = .ok V' → Inv ms V → (∀ p ∈ path, p ∉ V) →
      VisitOk ms path V n V') :
    ∀ (ds : List String) (V V' : List String),
      exceptFold f V ds = .ok V' → Inv ms V → (∀ p ∈ path, p ∉ V) →
      FoldOk ms path V ds V' := by
  intro ds
  induction ds with
  | nil =>
    intro V V' h hInv hpath
    cases h
    exact ⟨hInv, ⟨[], by simp⟩, by simp, hpath, fun x hx => .inl hx⟩
  | cons d rest ih =>
    intro V V' h hInv hpath
    cases hv : f V d with
    | error e => rw [exceptFold, hv] at h; cases h
    | ok v₁ =>
      rw [exceptFold, hv] at h
      obtain ⟨hInv₁, ⟨Δ₁, hΔ₁⟩, hd₁, hpath₁, hreach₁⟩ := hvisit V d v₁ hv hInv hpath
      obtain ⟨hInv₂, ⟨Δ₂, hΔ₂⟩, hds₂, hpath₂, hreach₂⟩ := ih v₁ V' h hInv₁ hpath₁
      refine ⟨hInv₂, ⟨Δ₁ ++ Δ₂, by rw [hΔ₂, hΔ₁, List.append_assoc]⟩, ?_, hpath₂, ?_⟩
      · intro d' hd'
        rcases List.mem_cons.1 hd' with h1 | h1
        · subst h1
          rw [hΔ₂]
          exact List.mem_append_left _ hd₁
        · exact hds₂ d' h1
      · intro x hx
        rcases hreach₂ x hx with h1 | ⟨d', hd', h2⟩
        · rcases hreach₁ x h1 with h3 | h3
          · exact .inl h3
          · exact .inr ⟨d, List.mem_cons_self _ _, h3⟩
        · exact .inr ⟨d', List.mem_cons_of_mem _ hd', h2⟩

theorem visit_ok_spec {ms : List ModuleDeclaration} :
    ∀ (fuel : Nat) (path V : List String) (n : String) (V' : List String),
      visit ms fuel path V n = .ok V' → Inv ms V → (∀ p ∈ path, p ∉ V) →
      VisitOk ms path V n V' := by
  intro fuel
  induction fuel with
  | zero => intro path V n V' h; cases h
  | succ fuel ih =>
    intro path V n V' h hInv hpath
    by_cases h1 : n ∈ path
    · rw [visit_in_path h1] at h; cases h
    · by_cases h2 : n ∈ V
      · rw [visit_in_visited h1 h2] at h
        cases h
        exact ⟨hInv, ⟨[], by simp⟩, h2, hpath, fun x hx => .inl hx⟩
      · cases hf : findModule ms n with
        | none => rw [visit_unknown h1 h2 hf] at h; cases h
        | some m =>
          rw [visit_step h1 h2 hf] at h
          cases hfold : exceptFold (fun v d => visit ms fuel (path ++ [n]) v d)
              V m.deps with
          | error e => rw [hfold] at h; cases h
          | ok v₁ =>
            rw [hfold] at h
            cases h
            have hpath' : ∀ p ∈ path ++ [n], p ∉ V := by
              intro p hp
              rcases List.mem_append.1 hp with hp1 | hp1
              · exact hpath p hp1
              · rw [List.mem_singleton.1 hp1]; exact h2
            have F := exceptFold_ok_spec ms (path ++ [n])
              (fun v d => visit ms fuel (path ++ [n]) v d)
              (fun V₀ n₀ V₀' hv hI hp => ih (path ++ [n]) V₀ n₀ V₀' hv hI hp)
              m.deps V v₁ hfold hInv hpath'
            obtain ⟨⟨hnd₁, hpw₁, hcl₁, hself₁⟩, ⟨Δ₁, hΔ₁⟩, hdeps, hpath₁, hreach₁⟩ := F
            have hnv₁ : n ∉ v₁ :=
              hpath₁ n (List.mem_append_right _ (List.mem_singleton_self n))
            have hdepsOf : depsOf ms n = m.deps := by unfold depsOf; rw [hf]
            have hedge_of : ∀ b, Edge ms n b → b ∈ m.deps := by
              intro b e
              rw [← hdepsOf]
              exact e
            refine ⟨⟨?_, ?_, ?_, ?_⟩,
              ⟨Δ₁ ++ [n], by rw [hΔ₁, List.append_assoc]⟩,
              List.mem_append_right _ (List.mem_singleton_self n), ?_, ?_⟩
            · -- accumulator has no duplicates
              rw [List.nodup_append]
              refine ⟨hnd₁, List.nodup_singleton n, ?_⟩
              intro a ha hb
              rw [List.mem_singleton.1 hb] at ha
              exact hnv₁ ha
            · -- no edge from an earlier to a later accumulator entry
              rw [List.pairwise_append]
              refine ⟨hpw₁, List.pairwise_singleton _ n, ?_⟩
              intro a ha b hb
              rw [List.mem_singleton.1 hb]
              intro e
              exact hnv₁ (hcl₁ a ha n e)
            · -- closed under edges
              intro a ha b e
              rcases List.mem_append.1 ha with ha1 | ha1
              · exact List.mem_append_left _ (hcl₁ a ha1 b e)
              · rw [List.mem_singleton.1 ha1] at e
                exact List.mem_append_left _ (hdeps b (hedge_of b e))
            · -- no self edges
              intro a ha
              rcases List.mem_append.1 ha with ha1 | ha1
              · exact hself₁ a ha1
              · rw [List.mem_singleton.1 ha1]
                intro e
                exact hnv₁ (hdeps n (hedge_of n e))
            · -- nothing on the path is recorded
              intro p hp
              intro hmem
              rcases List.mem_append.1 hmem with h3 | h3
              · exact hpath₁ p (List.mem_append_left _ hp) h3
              · rw [List.mem_singleton.1 h3] at hp
                exact h1 hp
            · -- every record is old, the node, or reachable from it
              intro x hx
              rcases List.mem_append.1 hx with h3 | h3
              · rcases hreach₁ x h3 with h4 | ⟨d, hd, h5⟩
                · exact .inl h4
                · have e : Edge ms n d := by
                    show d ∈ depsOf ms n
                    rw [hdepsOf]
                    exact hd
                  rcases h5 with rfl | h5
                  · exact .inr (.inr (.single e))
                  · exact .inr (.inr (.cons e h5))
              · exact .inr (.inl (List.mem_singleton.1 h3))

/-! ### From a successful traversal to acyclicity -/

theorem no_cycle_of_inv {ms : List ModuleDeclaration} :
    ∀ (L D : List String),
      (∀ d ∈ D, ∀ b, Edge ms d b → b ∈ D) → (∀ a ∈ L, a ∉ D) →
      L.Nodup → L.Pairwise (fun a b => ¬ Edge ms a b) →
      (∀ a ∈ L, ∀ b, Edge ms a b → b ∈ L ∨ b ∈ D) → (∀ a ∈ L, ¬ Edge ms a a) →
      ∀ a ∈ L, ¬ Reaches ms a a := by
  intro L
  induction L with
  | nil => intro D _ _ _ _ _ _ a ha; simp at ha
  | cons x rest ih =>
    intro D hD hLD hnodup hpw hclosed hself a ha hre
    rcases List.mem_cons.1 ha with h1 | h1
    · subst h1
      cases hre with
      | single e => exact hself _ ha e
      | cons e hr' =>
        rcases hclosed _ ha _ e with hb | hb
        · rcases List.mem_cons.1 hb with h2 | h2
          · exact hself _ ha (h2 ▸ e)
          · exact (List.pairwise_cons.1 hpw).1 _ h2 e
        · exact hLD _ ha (reaches_stay hD hr' hb)
    · have hxn : x ∉ rest := (List.nodup_cons.1 hnodup).1
      apply ih (x :: D) ?_ ?_ (List.nodup_cons.1 hnodup).2
        (List.pairwise_cons.1 hpw).2 ?_ ?_ a h1 hre
      · -- the enlarged sink region is closed
        intro d hd b e
        rcases List.mem_cons.1 hd with h2 | h2
        · have ex : Edge ms x b := by rw [← h2]; exact e
          rcases hclosed x (List.mem_cons_self _ _) b ex with hb | hb
          · rcases List.mem_cons.1 hb with h3 | h3
            · have exx : Edge ms x x := by rw [h3] at ex; exact ex
              exact absurd exx (hself x (List.mem_cons_self _ _))
            · exact absurd ex ((List.pairwise_cons.1 hpw).1 _ h3)
          · exact List.mem_cons_of_mem _ hb
        · exact List.mem_cons_of_mem _ (hD d h2 b e)
      · -- the tail avoids the enlarged sink region
        intro a' ha' hmem
        rcases List.mem_cons.1 hmem with h2 | h2
        · exact hxn (h2 ▸ ha')
        · exact hLD a' (List.mem_cons_of_mem _ ha') h2
      · -- edges from the tail land in the tail or the region
        intro a' ha' b e
        rcases hclosed a' (List.mem_cons_of_mem _ ha') b e with hb | hb
        · rcases List.mem_cons.1 hb with h2 | h2
          · exact .inr (h2 ▸ List.mem_cons_self x D)
          · exact .inl h2
        · exact .inr (List.mem_cons_of_mem _ hb)
      · intro a' ha'
        exact hself a' (List.mem_cons_of_mem _ ha')

theorem isSome_of_mem_declaredNames {ms : List ModuleDeclaration} {n : String}
    (h : n ∈ declaredNames ms) : (findModule ms n).isSome := by
  rw [declaredNames, List.mem_map] at h
  obtain ⟨m, hm, rfl⟩ := h
  exact findModule_isSome_of_mem hm

theorem cycleCheckFold_ok_inv {ms : List ModuleDeclaration} {V' : List String}
    (h : cycleCheckFold ms = .ok V') :
    Inv ms V' ∧ ∀ n ∈ declaredNames ms, n ∈ V' := by
  have F := exceptFold_ok_spec ms []
    (fun v n => visit ms (graphFuel ms) [] v n)
    (fun V₀ n₀ V₀' hv hI hp => visit_ok_spec (graphFuel ms) [] V₀ n₀ V₀' hv hI hp)
    (declaredNames ms) [] V' h (inv_nil ms) (by simp)
  obtain ⟨hInv, _, hmem, _, _⟩ := F
  exact ⟨hInv, hmem⟩

theorem acyclic_of_cycleCheck_ok {ms : List ModuleDeclaration}
    (h : checkAcyclicAll ms = .ok ()) : ¬ HasCycle ms := by
  unfold checkAcyclicAll at h
  cases hcf : cycleCheckFold ms with
  | error e => rw [hcf] at h; cases h
  | ok V =>
    obtain ⟨hInv, hnames⟩ := cycleCheckFold_ok_inv hcf
    rintro ⟨n, hr⟩
    have hn : (findModule ms n).isSome := by
      cases hr with
      | single e => exact edge_src_isSome e
      | cons e _ => exact edge_src_isSome e
    have hnV : n ∈ V := hnames n (mem_declaredNames_of_isSome hn)
    obtain ⟨hnd, hpw, hcl, hself⟩ := hInv
    exact no_cycle_of_inv V [] (by simp) (by simp) hnd hpw
      (fun a ha b e => .inl (hcl a ha b e)) hself n hnV hr

theorem checkAcyclic_err_cycle {ms : List ModuleDeclaration} (hres : Resolved ms)
    {e : GraphError} (h : checkAcyclicAll ms = .error e) :
    ∃ c, e = .dependencyCycle c ∧ CycleList ms c := by
  unfold checkAcyclicAll at h
  cases hcf : cycleCheckFold ms with
  | ok V => rw [hcf] at h; cases h
  | error e' =>
    rw [hcf] at h
    cases h
    obtain ⟨n, hn, v, hv⟩ := exceptFold_error_exists hcf
    apply visit_err_cycle hres (graphFuel ms) [] v n _ hv
    · exact isSome_of_mem_declaredNames hn
    · simp
    · exact List.nodup_nil
    · trivial
    · simp only [graphFuel, declaredNames, List.length_map, List.length_nil]
      omega

/-! ### Link plans of a validated project -/

theorem modulePlan_err_cycle {ms : List ModuleDeclaration}
    {m : ModuleDeclaration} (hres : Resolved ms)
    (hnodup : (declaredNames ms).Nodup) (hm : m ∈ ms) {e : GraphError}
    (h : modulePlan ms m = .error e) :
    ∃ c, e = .dependencyCycle c ∧ CycleList ms c := by
  unfold modulePlan at h
  cases hfold : exceptFold (fun v d => visit ms (graphFuel ms) [m.name] v d)
      [] m.deps with
  | ok v => rw [hfold] at h; cases h
  | error e' =>
    rw [hfold] at h
    cases h
    obtain ⟨d, hd, v, hv⟩ := exceptFold_error_exists hfold
    have hfm : findModule ms m.name = some m := findModule_self hnodup hm
    apply visit_err_cycle hres (graphFuel ms) [m.name] v d _ hv
    · exact hres m hm d hd
    · intro p hp
      rw [List.mem_singleton.1 hp, hfm]
      rfl
    · exact List.nodup_singleton _
    · exact ⟨edge_of_deps hfm hd, trivial⟩
    · simp only [graphFuel, declaredNames, List.length_map, List.length_singleton]
      omega

theorem modulePlan_ok_spec {ms : List ModuleDeclaration} {m : ModuleDeclaration}
    {L : List String} (hnodup : (declaredNames ms).Nodup) (hm : m ∈ ms)
    (h : modulePlan ms m = .ok L) :
    L.Nodup ∧ ∀ x, x ∈ L ↔ Reaches ms m.name x := by
  unfold modulePlan at h
  cases hfold : exceptFold (fun v d => visit ms (graphFuel ms) [m.name] v d)
      [] m.deps with
  | error e => rw [hfold] at h; cases h
  | ok v =>
    rw [hfold] at h
    cases h
    have F := exceptFold_ok_spec ms [m.name]
      (fun v d => visit ms (graphFuel ms) [m.name] v d)
      (fun V₀ n₀ V₀' hv hI hp =>
        visit_ok_spec (graphFuel ms) [m.name] V₀ n₀ V₀' hv hI hp)
      m.deps [] v hfold (inv_nil ms) (by simp)
    obtain ⟨⟨hnd, hpw, hcl, hself⟩, _, hdeps, hpath₁, hreach⟩ := F
    have hfm : findModule ms m.name = some m := findModule_self hnodup hm
    have hdepsOf : depsOf ms m.name = m.deps := by unfold depsOf; rw [hfm]
    constructor
    · rw [List.nodup_reverse]
      exact hnd
    · intro x
      rw [List.mem_reverse]
      constructor
      · intro hx
        rcases hreach x hx with h1 | ⟨d, hd, h2⟩
        · simp at h1
        · have e : Edge ms m.name d := by
            show d ∈ depsOf ms m.name
            rw [hdepsOf]
            exact hd
          rcases h2 with rfl | h2
          · exact .single e
          · exact .cons e h2
      · intro hx
        obtain ⟨d, e, hcase⟩ := reaches_inv hx
        have hd : d ∈ m.deps := by
          rw [← hdepsOf]
          exact e
        have hdv : d ∈ v := hdeps d hd
        rcases hcase with rfl | h2
        · exact hdv
        · exact reaches_stay hcl h2 hdv

theorem buildLinkOrders_ok {ms : List ModuleDeclaration} (hres : Resolved ms)
    (hnodup : (declaredNames ms).Nodup) (hacyc : ¬ HasCycle ms) :
    ∀ l : List ModuleDeclaration, (∀ m ∈ l, m ∈ ms) →
      ∃ los, buildLinkOrders ms l = .ok los := by
  intro l
  induction l with
  | nil => exact fun _ => ⟨[], rfl⟩
  | cons m rest ih =>
    intro hsub
    cases hp : modulePlan ms m with
    | error e =>
      obtain ⟨c, _, hcyc⟩ :=
        modulePlan_err_cycle hres hnodup (hsub m (List.mem_cons_self _ _)) hp
      exact absurd (cycleList_hasCycle hcyc) hacyc
    | ok p =>
      obtain ⟨los, hlos⟩ := ih fun m' hm' => hsub m' (List.mem_cons_of_mem _ hm')
      exact ⟨(m.name, p) :: los,
        by simp [buildLinkOrders, hp, hlos, Except.bind, Except.map]⟩

theorem buildLinkOrders_lookup {ms : List ModuleDeclaration} :
    ∀ (l : List ModuleDeclaration) (los : List (String × List String)),
      buildLinkOrders ms l = .ok los → (declaredNames l).Nodup →
      ∀ m ∈ l, ∃ L, lookupPlan los m.name = some L ∧ modulePlan ms m = .ok L := by
  intro l
  induction l with
  | nil => intro los _ _ m hm; simp at hm
  | cons m₀ rest ih =>
    intro los h hnodup m hm
    cases hp : modulePlan ms m₀ with
    | error e => unfold buildLinkOrders at h; rw [hp] at h; cases h
    | ok p =>
      unfold buildLinkOrders at h
      rw [hp] at h
      cases hrest : buildLinkOrders ms rest with
      | error e => rw [hrest] at h; cases h
      | ok los' =>
        rw [hrest] at h
        simp [Except.bind, Except.map] at h
        subst h
        rw [declaredNames, List.map_cons, List.nodup_cons] at hnodup
        rcases List.mem_cons.1 hm with h1 | h1
        · subst h1
          exact ⟨p, by simp [lookupPlan], hp⟩
        · have hne : m₀.name ≠ m.name := by
            intro he
            exact hnodup.1 (he ▸ List.mem_map_of_mem ModuleDeclaration.name h1)
          obtain ⟨L, h2, h3⟩ := ih los' hrest hnodup.2 m h1
          refine ⟨L, ?_, h3⟩
          simp only [lookupPlan, if_neg hne]
          exact h2

/-! ### Claim C3 -/

/-- C3: for every module set whose dependency graph contains a cycle (the
set resolves, respects the program-dependency invariant, and some module
reaches itself), the generator fails with `GraphError.dependencyCycle`, and
the error carries the offending cycle as an ordered list of module names:
consecutive entries are dependency edges and the last entry depends on the
first, so every module on that cycle is named. -/
theorem claim3_cycle_error (ms : List ModuleDeclaration)
    (suites : List TestSuiteDecl) (ext : Option String)
    (hres : Resolved ms) (hprog : NoProgramDeps ms) (hcyc : HasCycle ms) :
    ∃ c, generate ⟨ms, suites, ext⟩ = .error (.graph (.dependencyCycle c)) ∧
      CycleList ms c := by
  have h1 : checkResolved ms ms = .ok () := checkResolved_ok hres
  have h2 : checkPrograms ms ms = .ok () := checkPrograms_ok hprog
  cases hc : checkAcyclicAll ms with
  | ok u =>
    cases u
    exact absurd hcyc (acyclic_of_cycleCheck_ok hc)
  | error e =>
    obtain ⟨c, he, hcl⟩ := checkAcyclic_err_cycle hres hc
    subst he
    exact ⟨c, generate_err (planProject_err_cycle h1 h2 hc), hcl⟩

/-- Witness for C3 at the two-module cycle A→B, B→A: the run fails with the
cycle error, the reported cycle is `["A", "B"]`, and both A and B are
named in it. -/
theorem claim3_witness :
    (∃ c, generate ⟨cyclicPair, [], none⟩ =
        .error (.graph (.dependencyCycle c)) ∧ CycleList cyclicPair c) ∧
    generate ⟨cyclicPair, [], none⟩ =
      .error (.graph (.dependencyCycle ["A", "B"])) ∧
    "A" ∈ ["A", "B"] ∧ "B" ∈ ["A", "B"] := by
  refine ⟨claim3_cycle_error cyclicPair [] none (by decide) (by decide) ?_,
    rfl, by decide, by decide⟩
  have eAB : Edge cyclicPair "A" "B" := by decide
  have eBA : Edge cyclicPair "B" "A" := by decide
  exact ⟨"A", .cons eAB (.single eBA)⟩

/-! ### Claim C1 -/

/-- C1, amended: for every acyclic module set with unique module names in
which every declared dependency name resolves to a declared module *and no
module depends on a Program-kind module*, the generator succeeds, and the
link plan it computes for each module lists exactly that module's
transitive dependency closure, each member exactly once (the plan has no
duplicates and membership coincides with reachability).  Order stability
across repeated runs on the same input is immediate because the modelled
generator is a pure function of its input. -/
theorem claim1_linkplans (ms : List ModuleDeclaration)
    (hnodup : (declaredNames ms).Nodup) (hres : Resolved ms)
    (hprog : NoProgramDeps ms) (hacyc : ¬ HasCycle ms) :
    ∃ pp, planProject ⟨ms, [], none⟩ = .ok pp ∧
      ∀ m ∈ ms, ∃ L, lookupPlan pp.linkOrders m.name = some L ∧ L.Nodup ∧
        ∀ x, x ∈ L ↔ Reaches ms m.name x := by
  have h1 : checkResolved ms ms = .ok () := checkResolved_ok hres
  have h2 : checkPrograms ms ms = .ok () := checkPrograms_ok hprog
  have h3 : checkAcyclicAll ms = .ok () := by
    cases hc : checkAcyclicAll ms with
    | ok u => cases u; rfl
    | error e =>
      obtain ⟨c, _, hcyc⟩ := checkAcyclic_err_cycle hres hc
      exact absurd (cycleList_hasCycle hcyc) hacyc
  obtain ⟨los, h4⟩ := buildLinkOrders_ok hres hnodup hacyc ms fun m hm => hm
  have h5 : checkSuiteNames ([] : List TestSuiteDecl) = .ok () := rfl
  have h6 : planSuites ms ([] : List TestSuiteDecl) = .ok [] := rfl
  refine ⟨⟨los, []⟩, planProject_ok_build h1 h2 h3 h4 h5 h6, ?_⟩
  intro m hm
  obtain ⟨L, hL1, hL2⟩ := buildLinkOrders_lookup ms los h4 hnodup m hm
  obtain ⟨hnd, hiff⟩ := modulePlan_ok_spec hnodup hm hL2
  exact ⟨L, hL1, hnd, hiff⟩

/-- Counterexample to C1 as frozen: `progDepPair` is acyclic, has unique
names, and every declared dependency name resolves to a declared module,
yet the generator does not succeed — it rejects the dependency of library
`B` on program `A`.  The claim omits the program-dependency restriction. -/
theorem claim1_counterexample :
    Resolved progDepPair ∧ (declaredNames progDepPair).Nodup ∧
    ¬ HasCycle progDepPair ∧
    planProject ⟨progDepPair, [], none⟩ =
      .error (.graph (.cannotDependOnProgram "A")) :=
  ⟨by decide, by decide, acyclic_of_cycleCheck_ok rfl, rfl⟩

/-- Witness for C1 at the README's four-module example. -/
theorem claim1_witness :
    ∃ pp, planProject ⟨readmeModules, [], none⟩ = .ok pp ∧
      ∀ m ∈ readmeModules, ∃ L, lookupPlan pp.linkOrders m.name = some L ∧
        L.Nodup ∧ ∀ x, x ∈ L ↔ Reaches readmeModules m.name x :=
  claim1_linkplans readmeModules (by decide) (by decide) (by decide)
    (acyclic_of_cycleCheck_ok rfl)

end MakeMake
